import Mathlib

/-! Verification of the LegacyRefactor pipeline core: the output normalizer
(`cleanLlmOutput`, the Coder's layered extraction), the schema translator
(`mapToJsonSchema`), credential resolution (`resolveApiKey`), the four stage
runners and the orchestrator (`startAnalysis`, `completeMigration`) together
with the UI driver functions (`handleStartAnalysis`, `handleDependencySubmit`).
Provider calls, `JSON.parse` and the stored-credential store are JavaScript
builtins or browser state outside the repository; they enter the model as
explicit oracle parameters. Everything else is translated from the source. -/

namespace LegacyRefactor

/-! Character-list utilities. `startsWithChars l p` is true when `p` is a
prefix of `l`; `trimChars` models `String.prototype.trim` (whitespace removed
from both ends). -/

def startsWithChars : List Char → List Char → Bool
  | _, [] => true
  | [], _ :: _ => false
  | c :: cs, p :: ps => c == p && startsWithChars cs ps

def trimChars (l : List Char) : List Char :=
  ((l.dropWhile Char.isWhitespace).reverse.dropWhile Char.isWhitespace).reverse

/-! The `<think>` block stripper: the first regex of `cleanLlmOutput`
(`/<think>[\s\S]*?<\/think>/g` replaced by the empty string). The lazy body
means a block reaches from an opening marker to the nearest closing marker;
the global flag scans left to right without rescanning earlier output. -/

def thinkOpen : List Char := "<think>".data

def thinkClose : List Char := "</think>".data

/-- First occurrence of the closing marker; returns what follows it. -/
def afterClose : List Char → Option (List Char)
  | [] => none
  | c :: cs =>
    if startsWithChars (c :: cs) thinkClose then some ((c :: cs).drop 8)
    else afterClose cs

/-- One fuel unit per scanning step; `stripThink` supplies enough fuel that
the base case is never reached, and the base case returns the input so that
runs with little fuel still act as the identity on match-free text. -/
def stripThinkF : Nat → List Char → List Char
  | 0, l => l
  | _ + 1, [] => []
  | fuel + 1, c :: cs =>
    if startsWithChars (c :: cs) thinkOpen then
      match afterClose ((c :: cs).drop 7) with
      | some rest => stripThinkF fuel rest
      | none => c :: stripThinkF fuel cs
    else c :: stripThinkF fuel cs

def stripThink (l : List Char) : List Char := stripThinkF l.length l

/-- Whether the think-block regex matches anywhere in `l`. -/
def hasThinkMatch : List Char → Bool
  | [] => false
  | c :: cs =>
    (startsWithChars (c :: cs) thinkOpen && (afterClose ((c :: cs).drop 7)).isSome)
      || hasThinkMatch cs

/-! The fence stripper: the second regex of `cleanLlmOutput`
(/```(json|python|bash)?/g replaced by the empty string). -/

def ticks : List Char := "```".data

/-- The optional language tag of the fence regex, alternatives tried in the
source's order json, python, bash. -/
def fenceTagSkip (l : List Char) : List Char :=
  if startsWithChars l "json".data then l.drop 4
  else if startsWithChars l "python".data then l.drop 6
  else if startsWithChars l "bash".data then l.drop 4
  else l

def stripFencesF : Nat → List Char → List Char
  | 0, l => l
  | _ + 1, [] => []
  | fuel + 1, c :: cs =>
    if startsWithChars (c :: cs) ticks then
      stripFencesF fuel (fenceTagSkip ((c :: cs).drop 3))
    else c :: stripFencesF fuel cs

def stripFences (l : List Char) : List Char := stripFencesF l.length l

/-- Whether three consecutive backticks occur anywhere in `l`. -/
def containsTicks : List Char → Bool
  | [] => false
  | c :: cs => startsWithChars (c :: cs) ticks || containsTicks cs

/-- `cleanLlmOutput` on character lists: strip think blocks, trim, strip
fence delimiters, trim. -/
def cleanChars (l : List Char) : List Char :=
  trimChars (stripFences (trimChars (stripThink l)))

def cleanLlmOutput (s : String) : String := String.mk (cleanChars s.data)

/-! A model of the values `JSON.parse` can return (`JSON.parse` itself is a
JavaScript builtin: the parse outcome enters the pipeline model as an oracle).
Objects are association lists in key order. -/

mutual
inductive Json where
  | null
  | bool (b : Bool)
  | num (n : Int)
  | str (s : String)
  | arr (elems : JsonList)
  | obj (fields : JsonFields)
inductive JsonList where
  | nil
  | cons (head : Json) (tail : JsonList)
inductive JsonFields where
  | nil
  | cons (key : String) (val : Json) (rest : JsonFields)
end

/-- The plain list of elements of a parsed JSON array. -/
def JsonList.toList : JsonList → List Json
  | .nil => []
  | .cons x xs => x :: xs.toList

/-- JavaScript truthiness of a parsed JSON value: `null`, `false`, `0` and
the empty string are falsy; every array and object is truthy. -/
def jsTruthy : Json → Bool
  | .null => false
  | .bool b => b
  | .num n => n != 0
  | .str s => s != ""
  | .arr _ => true
  | .obj _ => true

def fieldsFind : JsonFields → String → Option Json
  | .nil, _ => none
  | .cons key v rest, k => if key == k then some v else fieldsFind rest k

/-- Property access `v.k` on a non-null value: a field of an object, and
`undefined` (here `none`) on everything else. Access on `null` throws in
JavaScript and is handled separately where it can occur. -/
def jsGet (v : Json) (k : String) : Option Json :=
  match v with
  | .obj fields => fieldsFind fields k
  | _ => none

mutual
/-- JavaScript string coercion of a parsed JSON value, used when a value is
stored into the string-typed File Map. -/
def jsToStr : Json → String
  | .null => "null"
  | .bool b => if b then "true" else "false"
  | .num n => toString n
  | .str s => s
  | .arr l => jsJoinComma l
  | .obj _ => "[object Object]"

/-- `Array.prototype.toString`: elements joined by commas, `null` rendering
as the empty string. -/
def jsJoinComma : JsonList → String
  | .nil => ""
  | .cons x rest =>
    (match x with | .null => "" | v => jsToStr v) ++
      (match rest with | .nil => "" | .cons _ _ => "," ++ jsJoinComma rest)
end

/-! The File Map: a filename-to-content mapping with JavaScript object
semantics — assigning to an existing key overwrites in place, a new key is
appended. -/

abbrev FileMap := List (String × String)

def insertFM (m : FileMap) (k v : String) : FileMap :=
  if m.any (fun p => p.1 == k) then
    m.map (fun p => if p.1 == k then (p.1, v) else p)
  else m ++ [(k, v)]

def lookupFM (m : FileMap) (k : String) : Option String :=
  (m.find? (fun p => p.1 == k)).map (fun p => p.2)

/-! The vendor-neutral structured-output schema (`types.ts`): a recursive
tagged variant over six kinds, each node optionally carrying a description,
an enum constraint, a required-field list, a child field mapping and an
element schema. The optional recursive positions are their own inductives so
that all functions are plain mutual structural recursion. -/

inductive SchemaType where
  | STRING
  | NUMBER
  | INTEGER
  | BOOLEAN
  | ARRAY
  | OBJECT
deriving DecidableEq

/-- ASCII lowercasing, modelling `String.prototype.toLowerCase`. -/
def toLowerStr (s : String) : String := String.mk (s.data.map Char.toLower)

/-- The string value of the `SchemaType` enum member. -/
def SchemaType.jsName : SchemaType → String
  | .STRING => "STRING"
  | .NUMBER => "NUMBER"
  | .INTEGER => "INTEGER"
  | .BOOLEAN => "BOOLEAN"
  | .ARRAY => "ARRAY"
  | .OBJECT => "OBJECT"

mutual
inductive ResponseSchema where
  | mk (type : SchemaType) (description : Option String) (properties : OptProps)
       (items : OptSchema) (enumVals : Option (List String))
       (required : Option (List String))
inductive OptProps where
  | none
  | some (l : Props)
inductive Props where
  | nil
  | cons (key : String) (s : ResponseSchema) (rest : Props)
inductive OptSchema where
  | none
  | some (s : ResponseSchema)
end

/-! The loose JSON-Schema-like output dialect of `mapToJsonSchema`
(llmFactory): type is a plain string, `additionalProperties` appears exactly
when the input node carried `properties`. -/

mutual
inductive LooseSchema where
  | mk (type : String) (description : Option String) (enumVals : Option (List String))
       (required : Option (List String)) (properties : LOptProps)
       (additionalProperties : Option Bool) (items : LOptSchema)
inductive LOptProps where
  | none
  | some (l : LProps)
inductive LProps where
  | nil
  | cons (key : String) (s : LooseSchema) (rest : LProps)
inductive LOptSchema where
  | none
  | some (s : LooseSchema)
end

/-! `mapToJsonSchema` (llmFactory lines 115–138): lowercase the type name,
copy description, enum and required, recurse into properties and items, and
inject `additionalProperties: false` whenever `properties` is present. -/

/-- The injected `additionalProperties: false`, present exactly when the
node carries `properties`. -/
def addlOf : OptProps → Option Bool
  | .none => Option.none
  | .some _ => Option.some false

mutual
def mapToJsonSchema : ResponseSchema → LooseSchema
  | .mk ty desc props items en req =>
    .mk (toLowerStr (SchemaType.jsName ty)) desc en req (mapJsonProps props)
      (addlOf props) (mapJsonItems items)
def mapJsonProps : OptProps → LOptProps
  | .none => .none
  | .some l => .some (mapJsonPropsList l)
def mapJsonPropsList : Props → LProps
  | .nil => .nil
  | .cons k s rest => .cons k (mapToJsonSchema s) (mapJsonPropsList rest)
def mapJsonItems : OptSchema → LOptSchema
  | .none => .none
  | .some s => .some (mapToJsonSchema s)
end

/-! Well-formedness of a vendor-neutral schema (spec §3): every OBJECT node
defines `properties`, every ARRAY node defines `items`, recursively. -/

def hasProps : OptProps → Bool
  | .none => false
  | .some _ => true

def hasItems : OptSchema → Bool
  | .none => false
  | .some _ => true

mutual
def isWellFormed : ResponseSchema → Bool
  | .mk ty _ props items _ _ =>
    (!(ty == .OBJECT) || hasProps props) && (!(ty == .ARRAY) || hasItems items)
      && wfProps props && wfItems items
def wfProps : OptProps → Bool
  | .none => true
  | .some l => wfPropsList l
def wfPropsList : Props → Bool
  | .nil => true
  | .cons _ s rest => isWellFormed s && wfPropsList rest
def wfItems : OptSchema → Bool
  | .none => true
  | .some s => isWellFormed s
end

/-- The six lowercase JSON-Schema type names. -/
def lowerTypeNames : List String :=
  ["string", "number", "integer", "boolean", "array", "object"]

/-! The translated output is good when every node carries one of the six
lowercase type names and every node typed `object` carries
`additionalProperties: false`. -/

mutual
def looseGood : LooseSchema → Bool
  | .mk ty _ _ _ props addl items =>
    lowerTypeNames.contains ty
      && (!(ty == "object") || addl == Option.some false)
      && looseGoodProps props && looseGoodItems items
def looseGoodProps : LOptProps → Bool
  | .none => true
  | .some l => looseGoodList l
def looseGoodList : LProps → Bool
  | .nil => true
  | .cons _ s rest => looseGood s && looseGoodList rest
def looseGoodItems : LOptSchema → Bool
  | .none => true
  | .some s => looseGood s
end

/-! The two concrete schemas the pipeline authors in the vendor-neutral
dialect: the Analyst's plan schema (migrationService lines 61–75) and the
Auditor's report schema (lines 218–237). -/

def strSchema : ResponseSchema := .mk .STRING none .none .none none none

def strArrSchema : ResponseSchema := .mk .ARRAY none .none (.some strSchema) none none

def analystSchema : ResponseSchema :=
  .mk .OBJECT none
    (.some (.cons "summary" strSchema
      (.cons "variables" strArrSchema
      (.cons "security_concerns" strArrSchema
      (.cons "migration_strategy" strSchema
      (.cons "required_files"
        (.mk .ARRAY (some "List of filenames found in local imports/includes")
          .none (.some strSchema) none none)
        .nil))))))
    .none
    none
    (some ["summary", "variables", "security_concerns", "migration_strategy",
           "required_files"])

def severitySchema : ResponseSchema :=
  .mk .STRING none .none .none (some ["Critical", "High", "Medium", "Low"]) none

def issueSchema : ResponseSchema :=
  .mk .OBJECT none
    (.some (.cons "severity" severitySchema
      (.cons "title" strSchema
      (.cons "description" strSchema
      (.cons "location" strSchema .nil)))))
    .none
    none
    (some ["severity", "title", "description", "location"])

def auditorSchema : ResponseSchema :=
  .mk .OBJECT none
    (.some (.cons "comments" strSchema
      (.cons "security_issues" (.mk .ARRAY none .none (.some issueSchema) none none)
      .nil)))
    .none
    none
    (some ["comments", "security_issues"])

/-! The error taxonomy. Every throw site of the pipeline throws a JavaScript
`Error` with a distinct message; the messages are modelled by distinct
constructors. `providerFail` is the wrapped transport/auth/backend failure a
provider client throws, carrying provider and model context. -/

inductive Provider where
  | google
  | openrouter
deriving DecidableEq

structure ProvFail where
  provider : Provider
  model : String
  message : String
deriving DecidableEq

inductive MigErr where
  | missingKey (provider : Provider)
  | providerFail (e : ProvFail)
  | analystParse
  | coderExtraction
  | auditorParse
  | auditNullAccess
deriving DecidableEq

/-! The Coder's tolerant fallback pattern
`###\s+([a-zA-Z0-9_\-\./]+)\s+` + three backticks + `(?:python|bash|json)?\s*`
+ lazy body + three backticks, applied globally to the raw response text. -/

/-- The filename character class `[a-zA-Z0-9_\-\./]`. -/
def fnChar (c : Char) : Bool :=
  c.isAlpha || c.isDigit || c == '_' || c == '-' || c == '.' || c == '/'

/-- The optional language tag of the fallback pattern, alternatives in the
source's order python, bash, json. -/
def coderTagSkip (l : List Char) : List Char :=
  if startsWithChars l "python".data then l.drop 6
  else if startsWithChars l "bash".data then l.drop 4
  else if startsWithChars l "json".data then l.drop 4
  else l

/-- Lazy scan up to the first run of three backticks: returns the body before
it and the text after it. -/
def splitAtTicks : List Char → Option (List Char × List Char)
  | [] => none
  | c :: cs =>
    if startsWithChars (c :: cs) ticks then some ([], (c :: cs).drop 3)
    else match splitAtTicks cs with
      | some (pre, post) => some (c :: pre, post)
      | none => none

/-- Attempt to match the fallback pattern at the start of `l`; on success
returns capture group 1 (the filename), capture group 2 (the body) and the
text after the match. -/
def tryCoderMatch (l : List Char) : Option (String × String × List Char) :=
  match l with
  | '#' :: '#' :: '#' :: r0 =>
    let r1 := r0.dropWhile Char.isWhitespace
    if r1.length == r0.length then none
    else
      let fn := r1.takeWhile fnChar
      if fn.isEmpty then none
      else
        let r2 := r1.dropWhile fnChar
        let r3 := r2.dropWhile Char.isWhitespace
        if r3.length == r2.length then none
        else if startsWithChars r3 ticks then
          let r4 := coderTagSkip (r3.drop 3)
          let r5 := r4.dropWhile Char.isWhitespace
          match splitAtTicks r5 with
          | some (pre, post) => some (String.mk fn, String.mk pre, post)
          | none => none
        else none
  | _ => none

/-- All matches of the global fallback pattern, left to right, scanning
resuming after each match; one fuel unit per step. -/
def coderRegexF : Nat → List Char → List (String × String)
  | 0, _ => []
  | _ + 1, [] => []
  | fuel + 1, c :: cs =>
    match tryCoderMatch (c :: cs) with
    | some (fn, body, rest) => (fn, body) :: coderRegexF fuel rest
    | none => coderRegexF fuel cs

def coderRegexMatches (l : List Char) : List (String × String) :=
  coderRegexF l.length l

/-! The Coder stage's layered extraction (migrationService lines 157–192):
strategy 1 parses the cleaned text as JSON and walks a top-level `files`
array, strategy 2 folds the fallback matches into the map, and an empty final
map is a fatal extraction error. -/

/-- One `forEach` step of strategy 1: an entry contributes
`fileMap[f.filename] = f.content` exactly when both fields are truthy. -/
def entryStep (m : FileMap) (f : Json) : FileMap :=
  match jsGet f "filename", jsGet f "content" with
  | some fn, some ct => if jsTruthy fn && jsTruthy ct then insertFM m (jsToStr fn) (jsToStr ct) else m
  | _, _ => m

/-- Whether strategy 1 keeps an entry: both `filename` and `content` truthy. -/
def coderEntryValid (f : Json) : Bool :=
  match jsGet f "filename", jsGet f "content" with
  | some fn, some ct => jsTruthy fn && jsTruthy ct
  | _, _ => false

/-- The `files.forEach` loop. Property access on a `null` array element
throws a `TypeError`, aborting the loop with the entries inserted so far;
the first component records whether that happened. -/
def forEachFiles : FileMap → JsonList → Bool × FileMap
  | m, .nil => (false, m)
  | m, .cons f rest =>
    match f with
    | .null => (true, m)
    | _ => forEachFiles (entryStep m f) rest

/-- Strategy 1 on the parse outcome of the cleaned text (`none` when
`JSON.parse` threw): yields `(jsonSuccess, fileMap, caught)` where `caught`
records whether the `try` block threw (producing the info log entry). -/
def coderStrictPhase (parsed : Option Json) : Bool × FileMap × Bool :=
  match parsed with
  | none => (false, [], true)
  | some .null => (false, [], true)
  | some p =>
    match jsGet p "files" with
    | some (.arr files) =>
      let r := forEachFiles [] files
      (!r.1, r.2, r.1)
    | _ => (false, [], false)

/-- The full extraction: `parsed` is the `JSON.parse` outcome on the cleaned
text, `text` the raw response text the fallback pattern scans. The loop body
of strategy 2 trims both capture groups before inserting. -/
def runCoderExtract (parsed : Option Json) (text : List Char) : Except MigErr FileMap :=
  let s := coderStrictPhase parsed
  let fileMap :=
    if !s.1 || s.2.1.isEmpty then
      (coderRegexMatches text).foldl
        (fun m p => insertFM m (String.mk (trimChars p.1.data)) (String.mk (trimChars p.2.data)))
        s.2.1
    else s.2.1
  if fileMap.isEmpty then .error .coderExtraction
  else .ok fileMap

/-! Pipeline data types (types.ts). Timestamps, durations and token counts
on Log Entries are presentation metadata read from `Date.now()` and the
provider response; the claims under verification talk about entry kind and
stage, so the model keeps `step`, `type` and a structural `content`. -/

inductive AnalysisStep where
  | IDLE
  | ANALYST
  | WAITING_FOR_USER
  | ARCHITECT
  | CODER
  | AUDITOR
  | COMPLETE
  | ERROR
deriving DecidableEq

structure ApiKeys where
  google : String
  openrouter : String
deriving DecidableEq

structure ModelSelection where
  provider : Provider
  model : String
deriving DecidableEq

structure ModelConfig where
  analyst : ModelSelection
  architect : ModelSelection
  coder : ModelSelection
  auditor : ModelSelection
deriving DecidableEq

/-- The Analyst's Plan as `JSON.parse` delivers it: the interface declares
five required fields, but the cast does not validate, so each field may be
absent at runtime (the orchestrator guards `required_files` accordingly).
`vars` renders the source field `variables`, whose name is a Lean keyword. -/
structure AnalystPlan where
  summary : Option String
  vars : Option (List String)
  security_concerns : Option (List String)
  migration_strategy : Option String
  required_files : Option (List String)
deriving DecidableEq

inductive LogType where
  | prompt
  | response
  | info
  | error
deriving DecidableEq

/-- The prompt of each stage, kept structural: the template wording is out
of the verified scope, the data flowing into it is not. -/
inductive Prompt where
  | analyst (mainCode : String)
  | architect (plan : AnalystPlan) (contextStr : String)
  | coder (architecture : String) (contextStr : String)
  | auditor (originalStr : String) (newStr : String)
deriving DecidableEq

inductive LogContent where
  | promptC (sel : ModelSelection) (p : Prompt)
  | respC (text : String)
  | infoC
  | errC
deriving DecidableEq

structure LogEntry where
  step : AnalysisStep
  type : LogType
  content : LogContent
deriving DecidableEq

structure Usage where
  input : Nat
  output : Nat
  total : Nat
deriving DecidableEq

/-- A provider client's normalized result shape. An absent or empty response
text is the empty string (both are falsy at every use site). -/
structure GenRes where
  text : String
  usage : Option Usage
deriving DecidableEq

structure GenParams where
  model : String
  prompt : Prompt
  responseSchema : Option ResponseSchema
  responseMimeType : Option String

/-- The external stored-credential store (`getStoredApiKey`: localStorage,
then environment). The core only reads it. -/
abbrev StoredKeys := Provider → Option String

/-- The provider round trip as an oracle: what `generateContent` returns (or
throws, already wrapped with provider and model context) for a request. -/
abbrev GenOracle := Provider → GenParams → Except ProvFail GenRes

/-- `resolveApiKey` (migrationService lines 31–39): session keys from the UI
first, the stored credential as fallback. -/
def resolveApiKey (provider : Provider) (sessionKeys : Option ApiKeys)
    (stored : StoredKeys) : Option String :=
  match sessionKeys with
  | some ks =>
    if provider == .google && ks.google != "" then some ks.google
    else if provider == .openrouter && ks.openrouter != "" then some ks.openrouter
    else stored provider
  | none => stored provider

/-- The Architect/Coder context block: one `--- FILE: name ---` section per
File Map entry, joined by newlines. -/
def contextStrOf (ctx : FileMap) : String :=
  String.intercalate "\n" (ctx.map (fun p => "--- FILE: " ++ p.1 ++ " ---\n" ++ p.2 ++ "\n"))

/-- The Auditor's legacy summary: each entry truncated to 500 characters. -/
def auditOrigStr (ctx : FileMap) : String :=
  String.intercalate "\n" (ctx.map (fun p => p.1 ++ ": " ++ String.mk (p.2.data.take 500) ++ "..."))

/-- The Auditor's rendering of the generated files. -/
def auditNewStr (files : FileMap) : String :=
  String.intercalate "\n" (files.map (fun p => "--- " ++ p.1 ++ " ---\n" ++ p.2))

/-- What one stage runner produces: a result or a raised error, the appended
log entries in order, and the provider requests actually issued. -/
structure StageOut (α : Type) where
  result : Except MigErr α
  logs : List LogEntry
  requests : List (Provider × GenParams)

def analystParams (sel : ModelSelection) (mainCode : String) : GenParams :=
  { model := sel.model, prompt := .analyst mainCode,
    responseSchema := some analystSchema, responseMimeType := some "application/json" }

/-- Stage 1 (migrationService lines 42–88): log the prompt, resolve the
credential (failing before any request when it is missing), call the
provider, default an empty response to `{}`, clean, log the response, parse
the Plan — logging one error entry and raising when the parse fails. -/
def runAnalyst (sel : ModelSelection) (keys : ApiKeys) (stored : StoredKeys)
    (genO : GenOracle) (parsePlanO : String → Option AnalystPlan)
    (mainCode : String) : StageOut AnalystPlan :=
  let pLog : LogEntry := { step := .ANALYST, type := .prompt, content := .promptC sel (.analyst mainCode) }
  match resolveApiKey sel.provider (some keys) stored with
  | none => { result := .error (.missingKey sel.provider), logs := [pLog], requests := [] }
  | some apiKey =>
    if apiKey == "" then
      { result := .error (.missingKey sel.provider), logs := [pLog], requests := [] }
    else
      match genO sel.provider (analystParams sel mainCode) with
      | .error pf =>
        { result := .error (.providerFail pf), logs := [pLog],
          requests := [(sel.provider, analystParams sel mainCode)] }
      | .ok res =>
        let rawText := cleanLlmOutput (if res.text == "" then "\x7b\x7d" else res.text)
        let rLog : LogEntry := { step := .ANALYST, type := .response, content := .respC rawText }
        match parsePlanO rawText with
        | some plan =>
          { result := .ok plan, logs := [pLog, rLog],
            requests := [(sel.provider, analystParams sel mainCode)] }
        | none =>
          { result := .error .analystParse,
            logs := [pLog, rLog, { step := .ANALYST, type := .error, content := .errC }],
            requests := [(sel.provider, analystParams sel mainCode)] }

def architectParams (sel : ModelSelection) (plan : AnalystPlan) (ctx : FileMap) : GenParams :=
  { model := sel.model, prompt := .architect plan (contextStrOf ctx),
    responseSchema := none, responseMimeType := none }

/-- Stage 2 (lines 91–121): plain-text passthrough, an empty response text
defaulting to the literal `Architect failed.` before cleaning. -/
def runArchitect (sel : ModelSelection) (keys : ApiKeys) (stored : StoredKeys)
    (genO : GenOracle) (plan : AnalystPlan) (allContext : FileMap) : StageOut String :=
  let pLog : LogEntry := { step := .ARCHITECT, type := .prompt, content := .promptC sel (.architect plan (contextStrOf allContext)) }
  match resolveApiKey sel.provider (some keys) stored with
  | none => { result := .error (.missingKey sel.provider), logs := [pLog], requests := [] }
  | some apiKey =>
    if apiKey == "" then
      { result := .error (.missingKey sel.provider), logs := [pLog], requests := [] }
    else
      match genO sel.provider (architectParams sel plan allContext) with
      | .error pf =>
        { result := .error (.providerFail pf), logs := [pLog],
          requests := [(sel.provider, architectParams sel plan allContext)] }
      | .ok res =>
        let rawText := cleanLlmOutput (if res.text == "" then "Architect failed." else res.text)
        { result := .ok rawText,
          logs := [pLog, { step := .ARCHITECT, type := .response, content := .respC rawText }],
          requests := [(sel.provider, architectParams sel plan allContext)] }

def coderParams (sel : ModelSelection) (architecture : String) (ctx : FileMap) : GenParams :=
  { model := sel.model, prompt := .coder architecture (contextStrOf ctx),
    responseSchema := none, responseMimeType := some "application/json" }

/-- Stage 3 (lines 124–193): log the raw response, then the layered
extraction of `runCoderExtract`; the catch of strategy 1 appends one
info-kind entry. The `_plan` argument exists in the source signature but
does not flow into the prompt. -/
def runCoder (sel : ModelSelection) (keys : ApiKeys) (stored : StoredKeys)
    (genO : GenOracle) (parseJsonO : String → Option Json) (_plan : AnalystPlan)
    (architecture : String) (allContext : FileMap) : StageOut FileMap :=
  let pLog : LogEntry := { step := .CODER, type := .prompt, content := .promptC sel (.coder architecture (contextStrOf allContext)) }
  match resolveApiKey sel.provider (some keys) stored with
  | none => { result := .error (.missingKey sel.provider), logs := [pLog], requests := [] }
  | some apiKey =>
    if apiKey == "" then
      { result := .error (.missingKey sel.provider), logs := [pLog], requests := [] }
    else
      match genO sel.provider (coderParams sel architecture allContext) with
      | .error pf =>
        { result := .error (.providerFail pf), logs := [pLog],
          requests := [(sel.provider, coderParams sel architecture allContext)] }
      | .ok res =>
        let text := res.text
        let rLog : LogEntry := { step := .CODER, type := .response, content := .respC text }
        let parsed := parseJsonO (cleanLlmOutput text)
        let s := coderStrictPhase parsed
        let infoLogs : List LogEntry :=
          if s.2.2 then [{ step := .CODER, type := .info, content := .infoC }] else []
        { result := runCoderExtract parsed text.data,
          logs := [pLog, rLog] ++ infoLogs,
          requests := [(sel.provider, coderParams sel architecture allContext)] }

def auditorParams (sel : ModelSelection) (orig gen : FileMap) : GenParams :=
  { model := sel.model, prompt := .auditor (auditOrigStr orig) (auditNewStr gen),
    responseSchema := some auditorSchema, responseMimeType := some "application/json" }

/-- Stage 4 (lines 196–245): like the Analyst but `JSON.parse` runs outside
any try block, so a parse failure raises without an error log entry. -/
def runAuditor (sel : ModelSelection) (keys : ApiKeys) (stored : StoredKeys)
    (genO : GenOracle) (parseAuditO : String → Option Json)
    (originalContext generatedFiles : FileMap) : StageOut Json :=
  let pLog : LogEntry := { step := .AUDITOR, type := .prompt, content := .promptC sel (.auditor (auditOrigStr originalContext) (auditNewStr generatedFiles)) }
  match resolveApiKey sel.provider (some keys) stored with
  | none => { result := .error (.missingKey sel.provider), logs := [pLog], requests := [] }
  | some apiKey =>
    if apiKey == "" then
      { result := .error (.missingKey sel.provider), logs := [pLog], requests := [] }
    else
      match genO sel.provider (auditorParams sel originalContext generatedFiles) with
      | .error pf =>
        { result := .error (.providerFail pf), logs := [pLog],
          requests := [(sel.provider, auditorParams sel originalContext generatedFiles)] }
      | .ok res =>
        let rawText := cleanLlmOutput (if res.text == "" then "\x7b\x7d" else res.text)
        let rLog : LogEntry := { step := .AUDITOR, type := .response, content := .respC rawText }
        match parseAuditO rawText with
        | some j =>
          { result := .ok j, logs := [pLog, rLog],
            requests := [(sel.provider, auditorParams sel originalContext generatedFiles)] }
        | none =>
          { result := .error .auditorParse, logs := [pLog, rLog],
            requests := [(sel.provider, auditorParams sel originalContext generatedFiles)] }

/-! The orchestrator (lines 249–302): two entry points, a reported progress
stream, and a catch block per entry point that reports `ERROR` and re-raises
the stage's error unmodified. -/

structure OrchOut (α : Type) where
  result : Except MigErr α
  logs : List LogEntry
  requests : List (Provider × GenParams)
  progress : List AnalysisStep

/-- `plan.required_files && plan.required_files.length > 0`, as a Bool (the
JavaScript value is falsy exactly when this is false). -/
def needsFilesOf (plan : AnalystPlan) : Bool :=
  match plan.required_files with
  | some l => decide (0 < l.length)
  | none => false

def startAnalysis (mainCode : String) (cfg : ModelConfig) (keys : ApiKeys)
    (stored : StoredKeys) (genO : GenOracle)
    (parsePlanO : String → Option AnalystPlan) : OrchOut (AnalystPlan × Bool) :=
  let a := runAnalyst cfg.analyst keys stored genO parsePlanO mainCode
  match a.result with
  | .ok plan =>
    { result := .ok (plan, needsFilesOf plan), logs := a.logs, requests := a.requests,
      progress := [.ANALYST] }
  | .error e =>
    { result := .error e, logs := a.logs, requests := a.requests,
      progress := [.ANALYST, .ERROR] }

structure RefactorResult where
  plan : AnalystPlan
  generatedFiles : FileMap
  securityReport : Json
  auditorComments : Json
  modelConfig : ModelConfig

/-- `completeMigration`: Architect, Coder, Auditor in sequence; the field
reads on the audit result use `||` defaults, and reading a field of a `null`
audit value raises a `TypeError` through the same catch. -/
def completeMigration (plan : AnalystPlan) (allContext : FileMap) (cfg : ModelConfig)
    (keys : ApiKeys) (stored : StoredKeys) (genO : GenOracle)
    (parseJsonO parseAuditO : String → Option Json) : OrchOut RefactorResult :=
  let a := runArchitect cfg.architect keys stored genO plan allContext
  match a.result with
  | .error e =>
    { result := .error e, logs := a.logs, requests := a.requests,
      progress := [.ARCHITECT, .ERROR] }
  | .ok arch =>
    let c := runCoder cfg.coder keys stored genO parseJsonO plan arch allContext
    match c.result with
    | .error e =>
      { result := .error e, logs := a.logs ++ c.logs, requests := a.requests ++ c.requests,
        progress := [.ARCHITECT, .CODER, .ERROR] }
    | .ok files =>
      let d := runAuditor cfg.auditor keys stored genO parseAuditO allContext files
      match d.result with
      | .error e =>
        { result := .error e, logs := a.logs ++ c.logs ++ d.logs,
          requests := a.requests ++ c.requests ++ d.requests,
          progress := [.ARCHITECT, .CODER, .AUDITOR, .ERROR] }
      | .ok audit =>
        match audit with
        | .null =>
          { result := .error .auditNullAccess, logs := a.logs ++ c.logs ++ d.logs,
            requests := a.requests ++ c.requests ++ d.requests,
            progress := [.ARCHITECT, .CODER, .AUDITOR, .ERROR] }
        | _ =>
          { result := .ok
              { plan := plan, generatedFiles := files,
                securityReport :=
                  (match jsGet audit "security_issues" with
                   | some v => if jsTruthy v then v else .arr .nil
                   | none => .arr .nil),
                auditorComments :=
                  (match jsGet audit "comments" with
                   | some v => if jsTruthy v then v else .str "Audit completed."
                   | none => .str "Audit completed."),
                modelConfig := cfg },
            logs := a.logs ++ c.logs ++ d.logs,
            requests := a.requests ++ c.requests ++ d.requests,
            progress := [.ARCHITECT, .CODER, .AUDITOR, .COMPLETE] }

/-! The UI driver (App.tsx): `handleStartAnalysis` seeds the progress with
`ANALYST`, suspends in `WAITING_FOR_USER` when the Plan needs files, or runs
`completeMigration` on the single-entry File Map; its catch reports `ERROR`
once more. `handleDependencySubmit` resumes with the stored Plan and the
spread-together File Map. -/

structure AppOut where
  events : List AnalysisStep
  logs : List LogEntry
  requests : List (Provider × GenParams)
  result : Option RefactorResult
  error : Option MigErr
  partialPlan : Option AnalystPlan

def emptyAppOut : AppOut :=
  { events := [], logs := [], requests := [], result := none, error := none,
    partialPlan := none }

/-- The object spread `\x7b 'main.legacy': inputCode, ...additionalFiles \x7d`. -/
def spreadInto (base : FileMap) (extra : FileMap) : FileMap :=
  extra.foldl (fun acc p => insertFM acc p.1 p.2) base

def handleStartAnalysis (inputCode : String) (cfg : ModelConfig) (keys : ApiKeys)
    (stored : StoredKeys) (genO : GenOracle) (parsePlanO : String → Option AnalystPlan)
    (parseJsonO parseAuditO : String → Option Json) : AppOut :=
  if String.mk (trimChars inputCode.data) == "" then emptyAppOut
  else
    let sa := startAnalysis inputCode cfg keys stored genO parsePlanO
    match sa.result with
    | .error e =>
      { events := .ANALYST :: sa.progress ++ [.ERROR], logs := sa.logs,
        requests := sa.requests, result := none, error := some e, partialPlan := none }
    | .ok (plan, needsFiles) =>
      if needsFiles then
        { events := .ANALYST :: sa.progress ++ [.WAITING_FOR_USER], logs := sa.logs,
          requests := sa.requests, result := none, error := none, partialPlan := some plan }
      else
        let cm := completeMigration plan [("main.legacy", inputCode)] cfg keys stored
          genO parseJsonO parseAuditO
        match cm.result with
        | .ok r =>
          { events := .ANALYST :: sa.progress ++ cm.progress, logs := sa.logs ++ cm.logs,
            requests := sa.requests ++ cm.requests, result := some r, error := none,
            partialPlan := none }
        | .error e =>
          { events := .ANALYST :: sa.progress ++ cm.progress ++ [.ERROR],
            logs := sa.logs ++ cm.logs, requests := sa.requests ++ cm.requests,
            result := none, error := some e, partialPlan := none }

def handleDependencySubmit (partialPlan : AnalystPlan) (inputCode : String)
    (additionalFiles : FileMap) (cfg : ModelConfig) (keys : ApiKeys) (stored : StoredKeys)
    (genO : GenOracle) (parseJsonO parseAuditO : String → Option Json) : AppOut :=
  let fullContext := spreadInto [("main.legacy", inputCode)] additionalFiles
  let cm := completeMigration partialPlan fullContext cfg keys stored genO parseJsonO parseAuditO
  match cm.result with
  | .ok r =>
    { events := cm.progress, logs := cm.logs, requests := cm.requests,
      result := some r, error := none, partialPlan := some partialPlan }
  | .error e =>
    { events := cm.progress ++ [.ERROR], logs := cm.logs, requests := cm.requests,
      result := none, error := some e, partialPlan := some partialPlan }

/-! Lemmas about the text cleaner. -/

theorem trimChars_eq_rdropWhile (l : List Char) :
    trimChars l = List.rdropWhile Char.isWhitespace (List.dropWhile Char.isWhitespace l) := rfl

theorem head_false_of_dropWhile {p : Char → Bool} :
    ∀ {l : List Char} {c : Char} {rest : List Char},
      List.dropWhile p l = c :: rest → p c = false := by
  intro l
  induction l with
  | nil => intro c rest h; simp [List.dropWhile] at h
  | cons a as ih =>
    intro c rest h
    rw [List.dropWhile_cons] at h
    cases ha : p a with
    | true => rw [ha] at h; simp at h; exact ih h
    | false =>
      rw [ha] at h
      simp at h
      obtain ⟨h1, -⟩ := h
      subst h1
      exact ha

theorem dropWhile_rdropWhile_dropWhile (p : Char → Bool) (l : List Char) :
    List.dropWhile p (List.rdropWhile p (List.dropWhile p l)) =
      List.rdropWhile p (List.dropWhile p l) := by
  cases hX : List.dropWhile p l with
  | nil => simp [List.rdropWhile]
  | cons c rest =>
    have hc : p c = false := head_false_of_dropWhile hX
    have hpre : List.rdropWhile p (c :: rest) <+: c :: rest := List.rdropWhile_prefix p _
    obtain ⟨s, hs⟩ := hpre
    cases hY : List.rdropWhile p (c :: rest) with
    | nil => simp
    | cons c2 t =>
      rw [hY] at hs
      have hcc : c2 = c := by
        have := hs
        simp at this
        exact this.1
      rw [hcc, List.dropWhile_cons, hc]
      simp

theorem trimChars_idem (l : List Char) : trimChars (trimChars l) = trimChars l := by
  rw [trimChars_eq_rdropWhile, trimChars_eq_rdropWhile,
    dropWhile_rdropWhile_dropWhile, List.rdropWhile_idempotent]

theorem stripThinkF_id (fuel : Nat) :
    ∀ l, hasThinkMatch l = false → stripThinkF fuel l = l := by
  induction fuel with
  | zero => intro l _; rfl
  | succ n ih =>
    intro l h
    match l with
    | [] => rfl
    | c :: cs =>
      rw [hasThinkMatch] at h
      have h2 : hasThinkMatch cs = false := by
        revert h; cases hasThinkMatch cs <;> simp
      have h1 : (startsWithChars (c :: cs) thinkOpen &&
          (afterClose ((c :: cs).drop 7)).isSome) = false := by
        revert h; cases startsWithChars (c :: cs) thinkOpen &&
          (afterClose ((c :: cs).drop 7)).isSome <;> simp
      rw [stripThinkF]
      by_cases hs : startsWithChars (c :: cs) thinkOpen = true
      · cases hac : afterClose ((c :: cs).drop 7) with
        | none => simp [hs, hac, ih cs h2]
        | some rest =>
          rw [hs, hac] at h1
          simp at h1
      · have hs' : startsWithChars (c :: cs) thinkOpen = false := by
          revert hs; cases startsWithChars (c :: cs) thinkOpen <;> simp
        simp [hs', ih cs h2]

theorem stripFencesF_id (fuel : Nat) :
    ∀ l, containsTicks l = false → stripFencesF fuel l = l := by
  induction fuel with
  | zero => intro l _; rfl
  | succ n ih =>
    intro l h
    match l with
    | [] => rfl
    | c :: cs =>
      rw [containsTicks] at h
      have h2 : containsTicks cs = false := by
        revert h; cases containsTicks cs <;> simp
      have h1 : startsWithChars (c :: cs) ticks = false := by
        revert h; cases startsWithChars (c :: cs) ticks <;> simp
      rw [stripFencesF]
      simp [h1, ih cs h2]

theorem cleanChars_idem_of (l : List Char)
    (h1 : hasThinkMatch (cleanChars l) = false)
    (h2 : containsTicks (cleanChars l) = false) :
    cleanChars (cleanChars l) = cleanChars l := by
  have hst : stripThink (cleanChars l) = cleanChars l := stripThinkF_id _ _ h1
  have htrim : trimChars (cleanChars l) = cleanChars l := trimChars_idem _
  have hsf : stripFences (cleanChars l) = cleanChars l := stripFencesF_id _ _ h2
  calc cleanChars (cleanChars l)
      = trimChars (stripFences (trimChars (stripThink (cleanChars l)))) := rfl
    _ = trimChars (stripFences (trimChars (cleanChars l))) := by rw [hst]
    _ = trimChars (stripFences (cleanChars l)) := by rw [htrim]
    _ = trimChars (cleanChars l) := by rw [hsf]
    _ = cleanChars l := htrim

/-- Claim C7, counterexample: cleaning is not idempotent. In the input below
the first pass removes the inner think block, and the removal splices the
surrounding text into a new think block that only a second pass removes, so
`clean (clean s)` is empty while `clean s` is not. -/
theorem claim7_counterexample :
    cleanLlmOutput (cleanLlmOutput "<thi<think>A</think>nk>B</think>") ≠
      cleanLlmOutput "<thi<think>A</think>nk>B</think>" := by decide

/-- Claim C7, amended: text cleaning is idempotent on every input whose
once-cleaned text contains no remaining think-block match and no fence
delimiter; in general a single global replacement pass can splice new
markers together (see the counterexample), so cleaning already-cleaned text
is a no-op only under this condition. -/
theorem claim7_amended (s : String)
    (h1 : hasThinkMatch (cleanLlmOutput s).data = false)
    (h2 : containsTicks (cleanLlmOutput s).data = false) :
    cleanLlmOutput (cleanLlmOutput s) = cleanLlmOutput s :=
  congrArg String.mk (cleanChars_idem_of s.data h1 h2)

/-- Claim C7, witness: the amended idempotence at a concrete cleaned input. -/
theorem claim7_witness :
    cleanLlmOutput (cleanLlmOutput "```python\nprint(1)\n```") =
      cleanLlmOutput "```python\nprint(1)\n```" :=
  claim7_amended "```python\nprint(1)\n```" (by decide) (by decide)

/-! The schema-translator property: on well-formed input the loose dialect
carries only the six lowercase type names and marks every node typed
`object` with `additionalProperties: false`. -/

mutual
theorem mapGoodS (s : ResponseSchema) (h : isWellFormed s = true) :
    looseGood (mapToJsonSchema s) = true := by
  cases s with
  | mk ty desc props items en req =>
    rw [isWellFormed] at h
    simp only [Bool.and_eq_true] at h
    obtain ⟨⟨⟨hobj, harr⟩, hp⟩, hi⟩ := h
    have hP := mapGoodP props hp
    have hI := mapGoodI items hi
    rw [mapToJsonSchema, looseGood]
    simp only [Bool.and_eq_true]
    refine ⟨⟨⟨?_, ?_⟩, hP⟩, hI⟩
    · cases ty <;> decide
    · cases props with
      | none =>
        cases ty with
        | OBJECT => exact absurd hobj (by decide)
        | STRING => rfl
        | NUMBER => rfl
        | INTEGER => rfl
        | BOOLEAN => rfl
        | ARRAY => rfl
      | some l => cases ty <;> rfl
theorem mapGoodP (p : OptProps) (h : wfProps p = true) :
    looseGoodProps (mapJsonProps p) = true := by
  cases p with
  | none => rfl
  | some l =>
    rw [wfProps] at h
    rw [mapJsonProps, looseGoodProps]
    exact mapGoodL l h
theorem mapGoodL (l : Props) (h : wfPropsList l = true) :
    looseGoodList (mapJsonPropsList l) = true := by
  cases l with
  | nil => rfl
  | cons k s rest =>
    rw [wfPropsList] at h
    simp only [Bool.and_eq_true] at h
    rw [mapJsonPropsList, looseGoodList]
    simp only [Bool.and_eq_true]
    exact ⟨mapGoodS s h.1, mapGoodL rest h.2⟩
theorem mapGoodI (i : OptSchema) (h : wfItems i = true) :
    looseGoodItems (mapJsonItems i) = true := by
  cases i with
  | none => rfl
  | some s =>
    rw [wfItems] at h
    rw [mapJsonItems, looseGoodItems]
    exact mapGoodS s h
end

/-- Claim C6: for every well-formed vendor-neutral schema (every OBJECT node
defines properties, every ARRAY node defines items), `mapToJsonSchema`
produces only lowercase type names and sets `additionalProperties: false` on
the translation of every OBJECT-kind node (`looseGood` states exactly these
two checks over the whole output tree). -/
theorem claim6_thm (s : ResponseSchema) (h : isWellFormed s = true) :
    looseGood (mapToJsonSchema s) = true := mapGoodS s h

/-- Claim C6, witness: the Analyst's concrete plan schema is well-formed and
its loose translation passes both checks. -/
theorem claim6_witness :
    isWellFormed analystSchema = true ∧ looseGood (mapToJsonSchema analystSchema) = true :=
  ⟨by decide, claim6_thm analystSchema (by decide)⟩

/-! Lemmas about the Coder's strict extraction loop. -/

theorem entryStep_of_invalid (m : FileMap) (f : Json) (h : coderEntryValid f = false) :
    entryStep m f = m := by
  cases hf : jsGet f "filename" with
  | none => simp [entryStep, hf]
  | some fn =>
    cases hc : jsGet f "content" with
    | none => simp [entryStep, hf, hc]
    | some ct =>
      rw [coderEntryValid, hf, hc] at h
      have h' : (jsTruthy fn && jsTruthy ct) = false := h
      simp [entryStep, hf, hc, h']

theorem forEachFiles_cons_not_null (m : FileMap) (f : Json) (rest : JsonList)
    (hf : f ≠ Json.null) :
    forEachFiles m (.cons f rest) = forEachFiles (entryStep m f) rest := by
  cases f with
  | null => exact absurd rfl hf
  | bool b => rfl
  | num n => rfl
  | str s => rfl
  | arr l => rfl
  | obj l => rfl

theorem forEachFiles_eq_filter (files : JsonList) :
    ∀ m : FileMap, (∀ f ∈ files.toList, f ≠ Json.null) →
      forEachFiles m files =
        (false, (files.toList.filter coderEntryValid).foldl entryStep m) := by
  cases files with
  | nil => intro m _; rfl
  | cons f rest =>
    intro m h
    have hf : f ≠ Json.null := h f (by simp [JsonList.toList])
    have hrest : ∀ g ∈ rest.toList, g ≠ Json.null := fun g hg =>
      h g (by simp [JsonList.toList, hg])
    rw [forEachFiles_cons_not_null m f rest hf, JsonList.toList, List.filter_cons]
    by_cases hv : coderEntryValid f = true
    · rw [if_pos hv, List.foldl_cons]
      exact forEachFiles_eq_filter rest (entryStep m f) hrest
    · have hv' : coderEntryValid f = false := by
        revert hv; cases coderEntryValid f <;> simp
      rw [if_neg (by simp [hv']), entryStep_of_invalid m f hv']
      exact forEachFiles_eq_filter rest m hrest

/-- Claim C9: in the Coder's strict extraction, every entry of the parsed
`files` array with a falsy `content` (the empty string, or a missing field)
or a falsy `filename` is silently omitted — the loop equals the fold of the
insert step over only the entries with both fields truthy, and the first
component `false` records that no exception (hence no info log) occurred.
Array elements that are the literal `null` are excluded by hypothesis: a
property read on `null` throws instead of skipping. -/
theorem claim9_thm (files : JsonList) (m : FileMap)
    (h : ∀ f ∈ files.toList, f ≠ Json.null) :
    forEachFiles m files =
      (false, (files.toList.filter coderEntryValid).foldl entryStep m) :=
  forEachFiles_eq_filter files m h

/-- A concrete Coder `files` array: one valid entry, one with empty content,
one with the filename missing, and one non-object entry. -/
def demoFilesC9 : JsonList :=
  .cons (.obj (.cons "filename" (.str "a.py") (.cons "content" (.str "print(1)") .nil)))
    (.cons (.obj (.cons "filename" (.str "b.py") (.cons "content" (.str "") .nil)))
      (.cons (.obj (.cons "content" (.str "x") .nil))
        (.cons (.str "junk") .nil)))

/-- Claim C9, witness: on the concrete array only the valid entry appears. -/
theorem claim9_witness :
    forEachFiles [] demoFilesC9 = (false, [("a.py", "print(1)")]) := by
  have h := claim9_thm demoFilesC9 []
    (by
      intro f hf
      simp only [demoFilesC9, JsonList.toList, List.mem_cons, List.not_mem_nil, or_false] at hf
      rcases hf with rfl | rfl | rfl | rfl <;> simp)
  rw [h]
  rfl

/-- Claim C4: when the cleaned Coder text parses to an object whose `files`
field is an array of exactly three entries, each an object with a non-empty
string filename and non-empty string content, and the filenames are
distinct, the strict strategy yields exactly those three entries — for every
raw response text, so the tolerant fallback never contributes (the guard
`!jsonSuccess || empty` is false). -/
theorem claim4_thm (flds : JsonFields) (text : List Char) (e1 e2 e3 : Json)
    (fn1 fn2 fn3 c1 c2 c3 : String)
    (hfiles : jsGet (.obj flds) "files" =
      some (.arr (.cons e1 (.cons e2 (.cons e3 .nil)))))
    (h1f : jsGet e1 "filename" = some (.str fn1))
    (h1c : jsGet e1 "content" = some (.str c1))
    (h2f : jsGet e2 "filename" = some (.str fn2))
    (h2c : jsGet e2 "content" = some (.str c2))
    (h3f : jsGet e3 "filename" = some (.str fn3))
    (h3c : jsGet e3 "content" = some (.str c3))
    (hne1 : fn1 ≠ "") (hne2 : fn2 ≠ "") (hne3 : fn3 ≠ "")
    (hce1 : c1 ≠ "") (hce2 : c2 ≠ "") (hce3 : c3 ≠ "")
    (hd12 : fn1 ≠ fn2) (hd13 : fn1 ≠ fn3) (hd23 : fn2 ≠ fn3) :
    runCoderExtract (some (.obj flds)) text = .ok [(fn1, c1), (fn2, c2), (fn3, c3)] := by
  have hnn1 : e1 ≠ Json.null := by intro hh; rw [hh] at h1f; simp [jsGet] at h1f
  have hnn2 : e2 ≠ Json.null := by intro hh; rw [hh] at h2f; simp [jsGet] at h2f
  have hnn3 : e3 ≠ Json.null := by intro hh; rw [hh] at h3f; simp [jsGet] at h3f
  have s1 : entryStep [] e1 = [(fn1, c1)] := by
    rw [entryStep, h1f, h1c]
    simp [jsTruthy, jsToStr, hne1, hce1, insertFM]
  have s2 : entryStep [(fn1, c1)] e2 = [(fn1, c1), (fn2, c2)] := by
    rw [entryStep, h2f, h2c]
    simp [jsTruthy, jsToStr, hne2, hce2, insertFM, hd12]
  have s3 : entryStep [(fn1, c1), (fn2, c2)] e3 = [(fn1, c1), (fn2, c2), (fn3, c3)] := by
    rw [entryStep, h3f, h3c]
    simp [jsTruthy, jsToStr, hne3, hce3, insertFM, hd13, hd23]
  have hmap : forEachFiles [] (.cons e1 (.cons e2 (.cons e3 .nil))) =
      (false, [(fn1, c1), (fn2, c2), (fn3, c3)]) := by
    rw [forEachFiles_cons_not_null _ _ _ hnn1, s1,
      forEachFiles_cons_not_null _ _ _ hnn2, s2,
      forEachFiles_cons_not_null _ _ _ hnn3, s3]
    rfl
  have hstrict : coderStrictPhase (some (.obj flds)) =
      (true, [(fn1, c1), (fn2, c2), (fn3, c3)], false) := by
    simp only [coderStrictPhase, hfiles, hmap]
    rfl
  rw [runCoderExtract, hstrict]
  simp

/-- The three-entry Coder object of the C4 witness. -/
def demoFilesC4 : JsonFields :=
  .cons "files"
    (.arr (.cons (.obj (.cons "filename" (.str "a.py") (.cons "content" (.str "A") .nil)))
      (.cons (.obj (.cons "filename" (.str "b.py") (.cons "content" (.str "B") .nil)))
        (.cons (.obj (.cons "filename" (.str "c.py") (.cons "content" (.str "C") .nil)))
          .nil))))
    .nil

/-- Claim C4, witness: the three entries extracted from a concrete parse,
with a raw text that the fallback pattern would match — yet does not touch. -/
theorem claim4_witness :
    runCoderExtract (some (.obj demoFilesC4)) "### z.py ```\nZ\n```".data =
      .ok [("a.py", "A"), ("b.py", "B"), ("c.py", "C")] :=
  claim4_thm demoFilesC4 "### z.py ```\nZ\n```".data _ _ _ "a.py" "b.py" "c.py" "A" "B" "C"
    rfl rfl rfl rfl rfl rfl rfl
    (by decide) (by decide) (by decide) (by decide) (by decide) (by decide)
    (by decide) (by decide) (by decide)

/-- Claim C5: when strategy 1 yields zero entries and the fallback pattern
has zero matches on the raw text, the Coder stage raises the extraction
error instead of returning an empty File Map, and it issued exactly one
provider request (no retry). -/
theorem claim5_thm (sel : ModelSelection) (keys : ApiKeys) (stored : StoredKeys)
    (genO : GenOracle) (parseJsonO : String → Option Json) (plan : AnalystPlan)
    (architecture : String) (ctx : FileMap) (k t : String) (u : Option Usage)
    (hkey : resolveApiKey sel.provider (some keys) stored = some k) (hk : k ≠ "")
    (hgen : genO sel.provider (coderParams sel architecture ctx) = .ok ⟨t, u⟩)
    (hzero : (coderStrictPhase (parseJsonO (cleanLlmOutput t))).2.1 = [])
    (hregex : coderRegexMatches t.data = []) :
    (runCoder sel keys stored genO parseJsonO plan architecture ctx).result =
      .error .coderExtraction ∧
    (runCoder sel keys stored genO parseJsonO plan architecture ctx).requests =
      [(sel.provider, coderParams sel architecture ctx)] := by
  have hkb : (k == "") = false := by simp [hk]
  have hext : runCoderExtract (parseJsonO (cleanLlmOutput t)) t.data =
      .error .coderExtraction := by
    rw [runCoderExtract, hregex, hzero]
    simp
  constructor
  · rw [runCoder, hkey]
    simp only [hkb, Bool.false_eq_true, if_false, hgen, hext]
  · rw [runCoder, hkey]
    simp only [hkb, Bool.false_eq_true, if_false, hgen]

/-- Claim C5, witness: a response that neither parses (`parse` yields
nothing on every input) nor contains any heading-plus-fence block. -/
theorem claim5_witness :
    (runCoder ⟨.google, "m"⟩ ⟨"key", ""⟩ (fun _ => none) (fun _ _ => .ok ⟨"no code here", none⟩)
        (fun _ => none) ⟨none, none, none, none, none⟩ "arch" []).result =
      .error .coderExtraction ∧
    (runCoder ⟨.google, "m"⟩ ⟨"key", ""⟩ (fun _ => none) (fun _ _ => .ok ⟨"no code here", none⟩)
        (fun _ => none) ⟨none, none, none, none, none⟩ "arch" []).requests =
      [(.google, coderParams ⟨.google, "m"⟩ "arch" [])] :=
  claim5_thm ⟨.google, "m"⟩ ⟨"key", ""⟩ (fun _ => none) (fun _ _ => .ok ⟨"no code here", none⟩)
    (fun _ => none) ⟨none, none, none, none, none⟩ "arch" [] "key" "no code here" none
    rfl (by decide) rfl rfl (by decide)


/-- Concrete configuration for witnesses. -/
def cfgW : ModelConfig :=
  ⟨⟨.google, "m1"⟩, ⟨.google, "m2"⟩, ⟨.openrouter, "m3"⟩, ⟨.openrouter, "m4"⟩⟩

def keysW : ApiKeys := ⟨"gk", "rk"⟩

/-- A parse oracle that recognizes only the empty-object text. -/
def parsePlanW : String → Option AnalystPlan := fun t =>
  if t == "\x7b\x7d" then some ⟨none, none, none, none, none⟩ else none

/-- No credential is available: the resolved value is absent or the empty
string (both falsy at the `if (!apiKey)` guard). -/
def missingCred (o : Option String) : Prop := o = none ∨ o = some ""

/-- Claim C8: for every stage, when no credential resolves for the stage's
provider the stage raises the missing-key configuration error — a
constructor distinct from every provider (transport) failure — and issues no
provider request; and `resolveApiKey` always prefers a non-empty explicit
session credential over the stored one. -/
theorem claim8_thm (sel : ModelSelection) (keys : ApiKeys) (stored : StoredKeys)
    (genO : GenOracle) (parsePlanO : String → Option AnalystPlan)
    (parseJsonO parseAuditO : String → Option Json)
    (mainCode arch : String) (plan : AnalystPlan) (ctx files : FileMap)
    (hmiss : missingCred (resolveApiKey sel.provider (some keys) stored)) :
    ((runAnalyst sel keys stored genO parsePlanO mainCode).result =
        .error (.missingKey sel.provider) ∧
      (runAnalyst sel keys stored genO parsePlanO mainCode).requests = [])
    ∧ ((runArchitect sel keys stored genO plan ctx).result =
        .error (.missingKey sel.provider) ∧
      (runArchitect sel keys stored genO plan ctx).requests = [])
    ∧ ((runCoder sel keys stored genO parseJsonO plan arch ctx).result =
        .error (.missingKey sel.provider) ∧
      (runCoder sel keys stored genO parseJsonO plan arch ctx).requests = [])
    ∧ ((runAuditor sel keys stored genO parseAuditO ctx files).result =
        .error (.missingKey sel.provider) ∧
      (runAuditor sel keys stored genO parseAuditO ctx files).requests = [])
    ∧ (∀ pf : ProvFail, MigErr.missingKey sel.provider ≠ MigErr.providerFail pf)
    ∧ (∀ ks : ApiKeys, ks.google ≠ "" →
        resolveApiKey .google (some ks) stored = some ks.google)
    ∧ (∀ ks : ApiKeys, ks.openrouter ≠ "" →
        resolveApiKey .openrouter (some ks) stored = some ks.openrouter) := by
  refine ⟨?_, ?_, ?_, ?_, fun pf h => MigErr.noConfusion h, ?_, ?_⟩
  · cases hmiss with
    | inl h => rw [runAnalyst, h]; exact ⟨rfl, rfl⟩
    | inr h => rw [runAnalyst, h]; exact ⟨rfl, rfl⟩
  · cases hmiss with
    | inl h => rw [runArchitect, h]; exact ⟨rfl, rfl⟩
    | inr h => rw [runArchitect, h]; exact ⟨rfl, rfl⟩
  · cases hmiss with
    | inl h => rw [runCoder, h]; exact ⟨rfl, rfl⟩
    | inr h => rw [runCoder, h]; exact ⟨rfl, rfl⟩
  · cases hmiss with
    | inl h => rw [runAuditor, h]; exact ⟨rfl, rfl⟩
    | inr h => rw [runAuditor, h]; exact ⟨rfl, rfl⟩
  · intro ks hg
    simp [resolveApiKey, hg]
  · intro ks ho
    cases hg : ks.google == "" with
    | true => simp [resolveApiKey, ho, hg]
    | false => simp [resolveApiKey, ho, hg]

/-- Claim C8, witness: empty session keys and an empty store make the
Analyst stage fail with the missing-key error before any request. -/
theorem claim8_witness :
    (runAnalyst ⟨.google, "m"⟩ ⟨"", ""⟩ (fun _ => none) (fun _ _ => .ok ⟨"x", none⟩)
        (fun _ => none) "code").result = .error (.missingKey .google) ∧
    (runAnalyst ⟨.google, "m"⟩ ⟨"", ""⟩ (fun _ => none) (fun _ _ => .ok ⟨"x", none⟩)
        (fun _ => none) "code").requests = [] ∧
    resolveApiKey .google (some ⟨"g", ""⟩) (fun _ => none) = some "g" := by
  have h := claim8_thm ⟨.google, "m"⟩ ⟨"", ""⟩ (fun _ => none) (fun _ _ => .ok ⟨"x", none⟩)
    (fun _ => none) (fun _ => none) (fun _ => none) "code" "arch"
    ⟨none, none, none, none, none⟩ [] [] (Or.inl rfl)
  exact ⟨h.1.1, h.1.2, h.2.2.2.2.2.1 ⟨"g", ""⟩ (by decide)⟩

/-- Claim C10: an empty Analyst response text does not fail the stage — the
text defaults to `{}`, which survives cleaning unchanged, parses (by the
`JSON.parse` oracle hypothesis) to the Plan with all five fields absent, and
`startAnalysis` returns that Plan with `needsFiles` false and no error. -/
theorem claim10_thm (inputCode : String) (cfg : ModelConfig) (keys : ApiKeys)
    (stored : StoredKeys) (genO : GenOracle) (parsePlanO : String → Option AnalystPlan)
    (k : String) (u : Option Usage)
    (hkey : resolveApiKey cfg.analyst.provider (some keys) stored = some k) (hk : k ≠ "")
    (hgen : genO cfg.analyst.provider (analystParams cfg.analyst inputCode) = .ok ⟨"", u⟩)
    (hparse : parsePlanO "\x7b\x7d" = some ⟨none, none, none, none, none⟩) :
    (startAnalysis inputCode cfg keys stored genO parsePlanO).result =
      .ok (⟨none, none, none, none, none⟩, false) ∧
    (startAnalysis inputCode cfg keys stored genO parsePlanO).progress = [.ANALYST] := by
  have hkb : (k == "") = false := by simp [hk]
  have hclean : cleanLlmOutput (if ("" : String) == "" then "\x7b\x7d" else "") = "\x7b\x7d" := by
    decide
  have ha : (runAnalyst cfg.analyst keys stored genO parsePlanO inputCode).result =
      .ok ⟨none, none, none, none, none⟩ := by
    rw [runAnalyst, hkey]
    simp only [hkb, Bool.false_eq_true, if_false, hgen, hclean, hparse]
  constructor
  · rw [startAnalysis, ha]
    rfl
  · rw [startAnalysis, ha]

/-- Claim C10, witness: a concrete run with an empty provider response. -/
theorem claim10_witness :
    (startAnalysis "code" cfgW keysW (fun _ => none) (fun _ _ => .ok ⟨"", none⟩)
        parsePlanW).result = .ok (⟨none, none, none, none, none⟩, false) ∧
    (startAnalysis "code" cfgW keysW (fun _ => none) (fun _ _ => .ok ⟨"", none⟩)
        parsePlanW).progress = [.ANALYST] :=
  claim10_thm "code" cfgW keysW (fun _ => none) (fun _ _ => .ok ⟨"", none⟩) parsePlanW
    "gk" none rfl (by decide) rfl (by decide)


/-! Shape lemmas about the orchestrator's progress stream and requests. -/

theorem completeMigration_progress_shape (plan : AnalystPlan) (allContext : FileMap)
    (cfg : ModelConfig) (keys : ApiKeys) (stored : StoredKeys) (genO : GenOracle)
    (parseJsonO parseAuditO : String → Option Json) :
    ∃ t, (completeMigration plan allContext cfg keys stored genO parseJsonO
        parseAuditO).progress = .ARCHITECT :: t ∧
      AnalysisStep.WAITING_FOR_USER ∉ t := by
  simp only [completeMigration]
  cases (runArchitect cfg.architect keys stored genO plan allContext).result with
  | error e => exact ⟨[.ERROR], rfl, by decide⟩
  | ok arch =>
    dsimp only
    cases (runCoder cfg.coder keys stored genO parseJsonO plan arch allContext).result with
    | error e => exact ⟨[.CODER, .ERROR], rfl, by decide⟩
    | ok files =>
      dsimp only
      cases (runAuditor cfg.auditor keys stored genO parseAuditO allContext files).result with
      | error e => exact ⟨[.CODER, .AUDITOR, .ERROR], rfl, by decide⟩
      | ok audit =>
        dsimp only
        cases audit with
        | null => exact ⟨[.CODER, .AUDITOR, .ERROR], rfl, by decide⟩
        | bool b => exact ⟨[.CODER, .AUDITOR, .COMPLETE], rfl, by decide⟩
        | num n => exact ⟨[.CODER, .AUDITOR, .COMPLETE], rfl, by decide⟩
        | str s => exact ⟨[.CODER, .AUDITOR, .COMPLETE], rfl, by decide⟩
        | arr l => exact ⟨[.CODER, .AUDITOR, .COMPLETE], rfl, by decide⟩
        | obj l => exact ⟨[.CODER, .AUDITOR, .COMPLETE], rfl, by decide⟩

theorem completeMigration_requests_prefix (plan : AnalystPlan) (allContext : FileMap)
    (cfg : ModelConfig) (keys : ApiKeys) (stored : StoredKeys) (genO : GenOracle)
    (parseJsonO parseAuditO : String → Option Json) :
    ∃ rest, (completeMigration plan allContext cfg keys stored genO parseJsonO
        parseAuditO).requests =
      (runArchitect cfg.architect keys stored genO plan allContext).requests ++ rest := by
  simp only [completeMigration]
  cases (runArchitect cfg.architect keys stored genO plan allContext).result with
  | error e => exact ⟨[], by simp⟩
  | ok arch =>
    dsimp only
    cases (runCoder cfg.coder keys stored genO parseJsonO plan arch allContext).result with
    | error e => exact ⟨_, rfl⟩
    | ok files =>
      dsimp only
      cases (runAuditor cfg.auditor keys stored genO parseAuditO allContext files).result with
      | error e => exact ⟨_, List.append_assoc _ _ _⟩
      | ok audit =>
        dsimp only
        cases audit with
        | null => exact ⟨_, List.append_assoc _ _ _⟩
        | bool b => exact ⟨_, List.append_assoc _ _ _⟩
        | num n => exact ⟨_, List.append_assoc _ _ _⟩
        | str s => exact ⟨_, List.append_assoc _ _ _⟩
        | arr l => exact ⟨_, List.append_assoc _ _ _⟩
        | obj l => exact ⟨_, List.append_assoc _ _ _⟩

theorem runArchitect_requests_of_key (sel : ModelSelection) (keys : ApiKeys)
    (stored : StoredKeys) (genO : GenOracle) (plan : AnalystPlan) (ctx : FileMap)
    (k : String) (hkey : resolveApiKey sel.provider (some keys) stored = some k)
    (hk : k ≠ "") :
    (runArchitect sel keys stored genO plan ctx).requests =
      [(sel.provider, architectParams sel plan ctx)] := by
  have hkb : (k == "") = false := by simp [hk]
  rw [runArchitect, hkey]
  cases hg : genO sel.provider (architectParams sel plan ctx) with
  | error pf => simp only [hkb, Bool.false_eq_true, if_false, hg]
  | ok res => simp only [hkb, Bool.false_eq_true, if_false, hg]


/-- The two shapes of a `handleStartAnalysis` run whose Analyst stage
succeeded: suspension in `WAITING_FOR_USER` when the Plan needs files, and
direct continuation into `ARCHITECT` otherwise (never visiting the waiting
state). -/
theorem handleStart_shape (inputCode : String) (cfg : ModelConfig) (keys : ApiKeys)
    (stored : StoredKeys) (genO : GenOracle) (parsePlanO : String → Option AnalystPlan)
    (parseJsonO parseAuditO : String → Option Json) (p : AnalystPlan)
    (hin : String.mk (trimChars inputCode.data) ≠ "")
    (hA : (runAnalyst cfg.analyst keys stored genO parsePlanO inputCode).result = .ok p) :
    (needsFilesOf p = true →
      (handleStartAnalysis inputCode cfg keys stored genO parsePlanO parseJsonO
          parseAuditO).events = [.ANALYST, .ANALYST, .WAITING_FOR_USER] ∧
      (handleStartAnalysis inputCode cfg keys stored genO parsePlanO parseJsonO
          parseAuditO).partialPlan = some p ∧
      (handleStartAnalysis inputCode cfg keys stored genO parsePlanO parseJsonO
          parseAuditO).result = none ∧
      (handleStartAnalysis inputCode cfg keys stored genO parsePlanO parseJsonO
          parseAuditO).error = none)
    ∧ (needsFilesOf p = false →
      ∃ t, (handleStartAnalysis inputCode cfg keys stored genO parsePlanO parseJsonO
          parseAuditO).events = .ANALYST :: .ANALYST :: .ARCHITECT :: t ∧
        AnalysisStep.WAITING_FOR_USER ∉ t) := by
  have hsa_res : (startAnalysis inputCode cfg keys stored genO parsePlanO).result =
      .ok (p, needsFilesOf p) := by
    rw [startAnalysis, hA]
  have hsa_prog : (startAnalysis inputCode cfg keys stored genO parsePlanO).progress =
      [.ANALYST] := by
    rw [startAnalysis, hA]
  have hinb : (String.mk (trimChars inputCode.data) == "") = false := by simp [hin]
  constructor
  · intro hnf
    simp only [handleStartAnalysis, hinb, Bool.false_eq_true, if_false, hsa_res, hnf,
      if_true, hsa_prog]
    simp
  · intro hnf
    simp only [handleStartAnalysis, hinb, Bool.false_eq_true, if_false, hsa_res, hnf,
      hsa_prog]
    obtain ⟨t, ht, hnt⟩ := completeMigration_progress_shape p [("main.legacy", inputCode)]
      cfg keys stored genO parseJsonO parseAuditO
    cases (completeMigration p [("main.legacy", inputCode)] cfg keys stored genO
        parseJsonO parseAuditO).result with
    | ok r =>
      dsimp only
      exact ⟨t, by simp [ht], hnt⟩
    | error e =>
      dsimp only
      refine ⟨t ++ [.ERROR], by simp [ht], ?_⟩
      simp only [List.mem_append, List.mem_singleton]
      rintro (h | h)
      · exact hnt h
      · exact AnalysisStep.noConfusion h

theorem needsFilesOf_iff (p : AnalystPlan) :
    needsFilesOf p = true ↔ ∃ l, p.required_files = some l ∧ l ≠ [] := by
  cases hr : p.required_files with
  | none => simp [needsFilesOf, hr]
  | some l =>
    simp only [needsFilesOf, hr, decide_eq_true_eq, Option.some.injEq]
    constructor
    · intro h
      exact ⟨l, rfl, List.ne_nil_of_length_pos h⟩
    · rintro ⟨l2, rfl, hne⟩
      exact List.length_pos.mpr hne

/-- Claim C2: with a successful Analyst stage producing Plan `p`,
`startAnalysis` returns `needsFiles` true exactly when `required_files` is
present and non-empty; the run visits `WAITING_FOR_USER` iff that holds, and
with no required files the reported states go directly from the Analyst
steps to `ARCHITECT`, never visiting `WAITING_FOR_USER`. -/
theorem claim2_thm (inputCode : String) (cfg : ModelConfig) (keys : ApiKeys)
    (stored : StoredKeys) (genO : GenOracle) (parsePlanO : String → Option AnalystPlan)
    (parseJsonO parseAuditO : String → Option Json) (p : AnalystPlan)
    (hin : String.mk (trimChars inputCode.data) ≠ "")
    (hA : (runAnalyst cfg.analyst keys stored genO parsePlanO inputCode).result = .ok p) :
    ((startAnalysis inputCode cfg keys stored genO parsePlanO).result =
        .ok (p, needsFilesOf p))
    ∧ (needsFilesOf p = true ↔ ∃ l, p.required_files = some l ∧ l ≠ [])
    ∧ ((AnalysisStep.WAITING_FOR_USER ∈ (handleStartAnalysis inputCode cfg keys stored
          genO parsePlanO parseJsonO parseAuditO).events) ↔ needsFilesOf p = true)
    ∧ (needsFilesOf p = false →
        ((handleStartAnalysis inputCode cfg keys stored genO parsePlanO parseJsonO
            parseAuditO).events.take 3 = [.ANALYST, .ANALYST, .ARCHITECT] ∧
          AnalysisStep.WAITING_FOR_USER ∉ (handleStartAnalysis inputCode cfg keys stored
            genO parsePlanO parseJsonO parseAuditO).events)) := by
  have hshape := handleStart_shape inputCode cfg keys stored genO parsePlanO parseJsonO
    parseAuditO p hin hA
  have hsa_res : (startAnalysis inputCode cfg keys stored genO parsePlanO).result =
      .ok (p, needsFilesOf p) := by
    rw [startAnalysis, hA]
  refine ⟨hsa_res, needsFilesOf_iff p, ?_, ?_⟩
  · cases hnf : needsFilesOf p with
    | true =>
      obtain ⟨hev, -, -, -⟩ := hshape.1 hnf
      rw [hev]
      simp
    | false =>
      obtain ⟨t, hev, hnt⟩ := hshape.2 hnf
      rw [hev]
      simp only [List.mem_cons, Bool.false_eq_true, iff_false]
      rintro (h | h | h | h)
      · exact AnalysisStep.noConfusion h
      · exact AnalysisStep.noConfusion h
      · exact AnalysisStep.noConfusion h
      · exact hnt h
  · intro hnf
    obtain ⟨t, hev, hnt⟩ := hshape.2 hnf
    rw [hev]
    constructor
    · rfl
    · simp only [List.mem_cons]
      rintro (h | h | h | h)
      · exact AnalysisStep.noConfusion h
      · exact AnalysisStep.noConfusion h
      · exact AnalysisStep.noConfusion h
      · exact hnt h

/-- A Plan with no required files. -/
def planNoDeps : AnalystPlan := ⟨some "s", some [], some [], some "m", some []⟩

/-- A parse oracle producing `planNoDeps` on every input. -/
def parsePlanNoDeps : String → Option AnalystPlan := fun _ => some planNoDeps

/-- Claim C2, witness: a concrete run with an empty `required_files` list
proceeds `ANALYST, ANALYST, ARCHITECT` without visiting the waiting state. -/
theorem claim2_witness :
    ((startAnalysis "code" cfgW keysW (fun _ => none) (fun _ _ => .ok ⟨"x", none⟩)
        parsePlanNoDeps).result = .ok (planNoDeps, needsFilesOf planNoDeps))
    ∧ ((AnalysisStep.WAITING_FOR_USER ∈ (handleStartAnalysis "code" cfgW keysW
        (fun _ => none) (fun _ _ => .ok ⟨"x", none⟩) parsePlanNoDeps (fun _ => none)
        (fun _ => none)).events) ↔ needsFilesOf planNoDeps = true)
    ∧ (handleStartAnalysis "code" cfgW keysW (fun _ => none)
        (fun _ _ => .ok ⟨"x", none⟩) parsePlanNoDeps (fun _ => none)
        (fun _ => none)).events.take 3 = [.ANALYST, .ANALYST, .ARCHITECT] := by
  have h := claim2_thm "code" cfgW keysW (fun _ => none) (fun _ _ => .ok ⟨"x", none⟩)
    parsePlanNoDeps (fun _ => none) (fun _ => none) planNoDeps (by decide) rfl
  exact ⟨h.1, h.2.2.1, (h.2.2.2 (by decide)).1⟩


/-- Claim C3: with a Plan requiring exactly one external file `f`, the run
suspends in `WAITING_FOR_USER` holding the Plan; the resume entry point
spreads the supplied file into the File Map over the primary
`main.legacy` entry (both present), re-enters `ARCHITECT` first (never the
waiting state), and — whenever the Architect's credential resolves — its
first provider request carries the unchanged Plan `p` and the two-entry
context. -/
theorem claim3_thm (inputCode : String) (cfg : ModelConfig) (keys : ApiKeys)
    (stored : StoredKeys) (genO : GenOracle) (parsePlanO : String → Option AnalystPlan)
    (parseJsonO parseAuditO : String → Option Json) (p : AnalystPlan) (f content : String)
    (hin : String.mk (trimChars inputCode.data) ≠ "")
    (hA : (runAnalyst cfg.analyst keys stored genO parsePlanO inputCode).result = .ok p)
    (hreq : p.required_files = some [f])
    (hf : f ≠ "main.legacy") :
    ((handleStartAnalysis inputCode cfg keys stored genO parsePlanO parseJsonO
        parseAuditO).events = [.ANALYST, .ANALYST, .WAITING_FOR_USER]
      ∧ (handleStartAnalysis inputCode cfg keys stored genO parsePlanO parseJsonO
          parseAuditO).partialPlan = some p
      ∧ (handleStartAnalysis inputCode cfg keys stored genO parsePlanO parseJsonO
          parseAuditO).result = none)
    ∧ spreadInto [("main.legacy", inputCode)] [(f, content)] =
        [("main.legacy", inputCode), (f, content)]
    ∧ lookupFM (spreadInto [("main.legacy", inputCode)] [(f, content)]) "main.legacy" =
        some inputCode
    ∧ lookupFM (spreadInto [("main.legacy", inputCode)] [(f, content)]) f = some content
    ∧ (handleDependencySubmit p inputCode [(f, content)] cfg keys stored genO parseJsonO
        parseAuditO).events.head? = some .ARCHITECT
    ∧ AnalysisStep.WAITING_FOR_USER ∉ (handleDependencySubmit p inputCode [(f, content)]
        cfg keys stored genO parseJsonO parseAuditO).events
    ∧ (∀ k, resolveApiKey cfg.architect.provider (some keys) stored = some k → k ≠ "" →
        (handleDependencySubmit p inputCode [(f, content)] cfg keys stored genO
            parseJsonO parseAuditO).requests.head? =
          some (cfg.architect.provider,
            architectParams cfg.architect p [("main.legacy", inputCode), (f, content)])) := by
  have hnf : needsFilesOf p = true := by simp [needsFilesOf, hreq]
  have hfm : ("main.legacy" == f) = false := by
    simp only [beq_eq_false_iff_ne, ne_eq]
    exact fun hh => hf hh.symm
  have hsp : spreadInto [("main.legacy", inputCode)] [(f, content)] =
      [("main.legacy", inputCode), (f, content)] := by
    simp [spreadInto, insertFM, hfm]
  obtain ⟨hev, hpp, hres, -⟩ := (handleStart_shape inputCode cfg keys stored genO
    parsePlanO parseJsonO parseAuditO p hin hA).1 hnf
  obtain ⟨t, ht, hnt⟩ := completeMigration_progress_shape p
    (spreadInto [("main.legacy", inputCode)] [(f, content)]) cfg keys stored genO
    parseJsonO parseAuditO
  have happ2 : (handleDependencySubmit p inputCode [(f, content)] cfg keys stored genO
        parseJsonO parseAuditO).events.head? = some .ARCHITECT ∧
      AnalysisStep.WAITING_FOR_USER ∉ (handleDependencySubmit p inputCode [(f, content)]
        cfg keys stored genO parseJsonO parseAuditO).events ∧
      (handleDependencySubmit p inputCode [(f, content)] cfg keys stored genO parseJsonO
        parseAuditO).requests = (completeMigration p
          (spreadInto [("main.legacy", inputCode)] [(f, content)]) cfg keys stored genO
          parseJsonO parseAuditO).requests := by
    simp only [handleDependencySubmit]
    cases (completeMigration p (spreadInto [("main.legacy", inputCode)] [(f, content)])
        cfg keys stored genO parseJsonO parseAuditO).result with
    | ok r =>
      dsimp only
      refine ⟨by rw [ht]; rfl, ?_, rfl⟩
      rw [ht]
      simp only [List.mem_cons]
      rintro (h | h)
      · exact AnalysisStep.noConfusion h
      · exact hnt h
    | error e =>
      dsimp only
      refine ⟨by rw [ht]; rfl, ?_, rfl⟩
      rw [ht]
      simp only [List.cons_append, List.mem_cons, List.mem_append, List.mem_singleton]
      rintro (h | h | h | h)
      · exact AnalysisStep.noConfusion h
      · exact hnt h
      · exact AnalysisStep.noConfusion h
      · exact List.not_mem_nil _ h
  refine ⟨⟨hev, hpp, hres⟩, hsp, by simp [hsp, lookupFM], by simp [hsp, lookupFM, hfm],
    happ2.1, happ2.2.1, ?_⟩
  intro k hkey hk
  obtain ⟨rest, hrs⟩ := completeMigration_requests_prefix p
    (spreadInto [("main.legacy", inputCode)] [(f, content)]) cfg keys stored genO
    parseJsonO parseAuditO
  rw [happ2.2.2, hrs, runArchitect_requests_of_key cfg.architect keys stored genO p
    (spreadInto [("main.legacy", inputCode)] [(f, content)]) k hkey hk, hsp]
  rfl

/-- The Plan of the C3 witness: one required dependency. -/
def planOneDep : AnalystPlan :=
  ⟨some "s", some [], some [], some "m", some ["includes/auth.php"]⟩

/-- A parse oracle producing `planOneDep` on every input. -/
def parsePlanOneDep : String → Option AnalystPlan := fun _ => some planOneDep

/-- Claim C3, witness: the concrete suspended run and its resume. -/
theorem claim3_witness :
    ((handleStartAnalysis "code" cfgW keysW (fun _ => none) (fun _ _ => .ok ⟨"x", none⟩)
        parsePlanOneDep (fun _ => none) (fun _ => none)).events =
      [.ANALYST, .ANALYST, .WAITING_FOR_USER])
    ∧ spreadInto [("main.legacy", "code")] [("includes/auth.php", "dep")] =
        [("main.legacy", "code"), ("includes/auth.php", "dep")]
    ∧ (handleDependencySubmit planOneDep "code" [("includes/auth.php", "dep")] cfgW keysW
        (fun _ => none) (fun _ _ => .ok ⟨"x", none⟩) (fun _ => none)
        (fun _ => none)).events.head? = some .ARCHITECT
    ∧ (handleDependencySubmit planOneDep "code" [("includes/auth.php", "dep")] cfgW keysW
        (fun _ => none) (fun _ _ => .ok ⟨"x", none⟩) (fun _ => none)
        (fun _ => none)).requests.head? =
      some (cfgW.architect.provider, architectParams cfgW.architect planOneDep
        [("main.legacy", "code"), ("includes/auth.php", "dep")]) := by
  have h := claim3_thm "code" cfgW keysW (fun _ => none) (fun _ _ => .ok ⟨"x", none⟩)
    parsePlanOneDep (fun _ => none) (fun _ => none) planOneDep "includes/auth.php" "dep"
    (by decide) rfl rfl (by decide)
  exact ⟨h.1.1, h.2.1, h.2.2.2.2.1, h.2.2.2.2.2.2 "gk" rfl (by decide)⟩


/-! Error-kind log entries per stage: no stage except the Analyst ever
appends one, and the Analyst appends exactly one — on its JSON-parse
failure, before raising. -/

theorem runArchitect_no_error_log (sel : ModelSelection) (keys : ApiKeys)
    (stored : StoredKeys) (genO : GenOracle) (plan : AnalystPlan) (ctx : FileMap) :
    (runArchitect sel keys stored genO plan ctx).logs.countP
      (fun l => l.type == LogType.error) = 0 := by
  rw [runArchitect]
  cases resolveApiKey sel.provider (some keys) stored with
  | none => rfl
  | some k =>
    cases hk : (k == "") with
    | true =>
      simp only [hk, if_true]
      rfl
    | false =>
      simp only [hk, Bool.false_eq_true, if_false]
      cases genO sel.provider (architectParams sel plan ctx) with
      | error pf => rfl
      | ok res => rfl

theorem runCoder_no_error_log (sel : ModelSelection) (keys : ApiKeys)
    (stored : StoredKeys) (genO : GenOracle) (parseJsonO : String → Option Json)
    (plan : AnalystPlan) (arch : String) (ctx : FileMap) :
    (runCoder sel keys stored genO parseJsonO plan arch ctx).logs.countP
      (fun l => l.type == LogType.error) = 0 := by
  rw [runCoder]
  cases resolveApiKey sel.provider (some keys) stored with
  | none => rfl
  | some k =>
    cases hk : (k == "") with
    | true =>
      simp only [hk, if_true]
      rfl
    | false =>
      simp only [hk, Bool.false_eq_true, if_false]
      cases genO sel.provider (coderParams sel arch ctx) with
      | error pf => rfl
      | ok res =>
        dsimp only
        cases (coderStrictPhase (parseJsonO (cleanLlmOutput res.text))).2.2 with
        | true => rfl
        | false => rfl

theorem runAuditor_no_error_log (sel : ModelSelection) (keys : ApiKeys)
    (stored : StoredKeys) (genO : GenOracle) (parseAuditO : String → Option Json)
    (orig gen : FileMap) :
    (runAuditor sel keys stored genO parseAuditO orig gen).logs.countP
      (fun l => l.type == LogType.error) = 0 := by
  rw [runAuditor]
  cases resolveApiKey sel.provider (some keys) stored with
  | none => rfl
  | some k =>
    cases hk : (k == "") with
    | true =>
      simp only [hk, if_true]
      rfl
    | false =>
      simp only [hk, Bool.false_eq_true, if_false]
      cases genO sel.provider (auditorParams sel orig gen) with
      | error pf => rfl
      | ok res =>
        dsimp only
        cases parseAuditO (cleanLlmOutput (if res.text == "" then "\x7b\x7d" else res.text)) with
        | some j => rfl
        | none => rfl

theorem runAnalyst_error_log_count (sel : ModelSelection) (keys : ApiKeys)
    (stored : StoredKeys) (genO : GenOracle) (parsePlanO : String → Option AnalystPlan)
    (mainCode : String) :
    (runAnalyst sel keys stored genO parsePlanO mainCode).logs.countP
        (fun l => l.type == LogType.error) =
      (match (runAnalyst sel keys stored genO parsePlanO mainCode).result with
       | .error .analystParse => 1
       | _ => 0) := by
  rw [runAnalyst]
  cases resolveApiKey sel.provider (some keys) stored with
  | none => rfl
  | some k =>
    cases hk : (k == "") with
    | true =>
      simp only [hk, if_true]
      rfl
    | false =>
      simp only [hk, Bool.false_eq_true, if_false]
      cases genO sel.provider (analystParams sel mainCode) with
      | error pf => rfl
      | ok res =>
        dsimp only
        cases parsePlanO (cleanLlmOutput (if res.text == "" then "\x7b\x7d" else res.text)) with
        | some plan => rfl
        | none => rfl

theorem completeMigration_no_error_log (plan : AnalystPlan) (allContext : FileMap)
    (cfg : ModelConfig) (keys : ApiKeys) (stored : StoredKeys) (genO : GenOracle)
    (parseJsonO parseAuditO : String → Option Json) :
    (completeMigration plan allContext cfg keys stored genO parseJsonO
        parseAuditO).logs.countP (fun l => l.type == LogType.error) = 0 := by
  have h1 := runArchitect_no_error_log cfg.architect keys stored genO plan allContext
  simp only [completeMigration]
  cases (runArchitect cfg.architect keys stored genO plan allContext).result with
  | error e => exact h1
  | ok arch =>
    dsimp only
    have h2 := runCoder_no_error_log cfg.coder keys stored genO parseJsonO plan arch
      allContext
    cases (runCoder cfg.coder keys stored genO parseJsonO plan arch allContext).result with
    | error e => simp [List.countP_append, h1, h2]
    | ok files =>
      dsimp only
      have h3 := runAuditor_no_error_log cfg.auditor keys stored genO parseAuditO
        allContext files
      cases (runAuditor cfg.auditor keys stored genO parseAuditO allContext
          files).result with
      | error e => simp [List.countP_append, h1, h2, h3]
      | ok audit =>
        dsimp only
        cases audit with
        | null => simp [List.countP_append, h1, h2, h3]
        | bool b => simp [List.countP_append, h1, h2, h3]
        | num n => simp [List.countP_append, h1, h2, h3]
        | str s => simp [List.countP_append, h1, h2, h3]
        | arr l => simp [List.countP_append, h1, h2, h3]
        | obj l => simp [List.countP_append, h1, h2, h3]

theorem completeMigration_error_progress (plan : AnalystPlan) (allContext : FileMap)
    (cfg : ModelConfig) (keys : ApiKeys) (stored : StoredKeys) (genO : GenOracle)
    (parseJsonO parseAuditO : String → Option Json) :
    ∀ e, (completeMigration plan allContext cfg keys stored genO parseJsonO
        parseAuditO).result = .error e →
      (completeMigration plan allContext cfg keys stored genO parseJsonO
        parseAuditO).progress.getLast? = some .ERROR := by
  simp only [completeMigration]
  cases (runArchitect cfg.architect keys stored genO plan allContext).result with
  | error e0 => intro e he; rfl
  | ok arch =>
    dsimp only
    cases (runCoder cfg.coder keys stored genO parseJsonO plan arch allContext).result with
    | error e0 => intro e he; rfl
    | ok files =>
      dsimp only
      cases (runAuditor cfg.auditor keys stored genO parseAuditO allContext
          files).result with
      | error e0 => intro e he; rfl
      | ok audit =>
        dsimp only
        cases audit with
        | null => intro e he; rfl
        | bool b => intro e he; exact Except.noConfusion he
        | num n => intro e he; exact Except.noConfusion he
        | str s => intro e he; exact Except.noConfusion he
        | arr l => intro e he; exact Except.noConfusion he
        | obj l => intro e he; exact Except.noConfusion he

theorem startAnalysis_error_facts (mainCode : String) (cfg : ModelConfig)
    (keys : ApiKeys) (stored : StoredKeys) (genO : GenOracle)
    (parsePlanO : String → Option AnalystPlan) :
    ((startAnalysis mainCode cfg keys stored genO parsePlanO).logs.countP
        (fun l => l.type == LogType.error) =
      (match (startAnalysis mainCode cfg keys stored genO parsePlanO).result with
       | .error MigErr.analystParse => 1
       | _ => 0))
    ∧ (∀ e, (startAnalysis mainCode cfg keys stored genO parsePlanO).result = .error e →
        (startAnalysis mainCode cfg keys stored genO parsePlanO).progress.getLast? =
          some .ERROR) := by
  have h := runAnalyst_error_log_count cfg.analyst keys stored genO parsePlanO mainCode
  simp only [startAnalysis]
  cases ha : (runAnalyst cfg.analyst keys stored genO parsePlanO mainCode).result with
  | ok plan =>
    dsimp only
    rw [ha] at h
    exact ⟨h, fun e he => Except.noConfusion he⟩
  | error e0 =>
    dsimp only
    rw [ha] at h
    constructor
    · cases e0 <;> exact h
    · exact fun e he => rfl

/-- Claim C1, amended: on any stage failure the orchestrator transitions the
reported state to `Error` and re-raises the stage's error unmodified, but it
appends no `error`-kind Log Entry itself: a `completeMigration` run carries
zero error-kind entries, and a `startAnalysis` run carries exactly one
precisely when the Analyst stage itself logged it on its JSON-parse failure
before raising. -/
theorem claim1_amended (plan : AnalystPlan) (allContext : FileMap) (cfg : ModelConfig)
    (keys : ApiKeys) (stored : StoredKeys) (genO : GenOracle)
    (parseJsonO parseAuditO : String → Option Json) (mainCode : String)
    (parsePlanO : String → Option AnalystPlan) :
    ((completeMigration plan allContext cfg keys stored genO parseJsonO
        parseAuditO).logs.countP (fun l => l.type == LogType.error) = 0)
    ∧ (∀ e, (completeMigration plan allContext cfg keys stored genO parseJsonO
          parseAuditO).result = .error e →
        (completeMigration plan allContext cfg keys stored genO parseJsonO
          parseAuditO).progress.getLast? = some .ERROR)
    ∧ (∀ e, (runArchitect cfg.architect keys stored genO plan allContext).result =
          .error e →
        (completeMigration plan allContext cfg keys stored genO parseJsonO
          parseAuditO).result = .error e)
    ∧ ((startAnalysis mainCode cfg keys stored genO parsePlanO).logs.countP
        (fun l => l.type == LogType.error) =
      (match (startAnalysis mainCode cfg keys stored genO parsePlanO).result with
       | .error MigErr.analystParse => 1
       | _ => 0))
    ∧ (∀ e, (startAnalysis mainCode cfg keys stored genO parsePlanO).result = .error e →
        (startAnalysis mainCode cfg keys stored genO parsePlanO).progress.getLast? =
          some .ERROR) := by
  refine ⟨completeMigration_no_error_log plan allContext cfg keys stored genO parseJsonO
      parseAuditO,
    completeMigration_error_progress plan allContext cfg keys stored genO parseJsonO
      parseAuditO,
    ?_,
    (startAnalysis_error_facts mainCode cfg keys stored genO parsePlanO).1,
    (startAnalysis_error_facts mainCode cfg keys stored genO parsePlanO).2⟩
  intro e he
  simp only [completeMigration, he]

/-- The concrete transport failure of the C1 counterexample. -/
def pfD : ProvFail := ⟨.google, "m2", "network unreachable"⟩

/-- A provider oracle in which every request fails with `pfD`. -/
def genOD : GenOracle := fun _ _ => .error pfD

def cmD : OrchOut RefactorResult :=
  completeMigration planNoDeps [("main.legacy", "code")] cfgW keysW (fun _ => none) genOD
    (fun _ => none) (fun _ => none)

/-- Claim C1, counterexample: a transport error in the Architect stage does
transition the reported state to `Error` and re-raise unmodified, but the
run's log stream contains zero `error`-kind entries — not exactly one. -/
theorem claim1_counterexample :
    cmD.result = .error (.providerFail pfD) ∧
    cmD.progress = [.ARCHITECT, .ERROR] ∧
    cmD.logs.countP (fun l => l.type == LogType.error) = 0 ∧
    cmD.logs.countP (fun l => l.type == LogType.error) ≠ 1 :=
  ⟨rfl, rfl, rfl, by decide⟩

/-- Claim C1, witness: the amended statement at the concrete failing run. -/
theorem claim1_witness :
    cmD.logs.countP (fun l => l.type == LogType.error) = 0 ∧
    cmD.progress.getLast? = some .ERROR ∧
    cmD.result = .error (.providerFail pfD) := by
  have h := claim1_amended planNoDeps [("main.legacy", "code")] cfgW keysW (fun _ => none)
    genOD (fun _ => none) (fun _ => none) "code" (fun _ => none)
  exact ⟨h.1, h.2.1 (.providerFail pfD) rfl, rfl⟩

end LegacyRefactor
